import Mathlib

/-!
Verification of the character-alignment engine of the NEReus repository
(`Stage1.1.1-ODS-Sheet.py`): `find_matching_substring`, `find_matching_line`
and `create_highlighted_text`, shallowly embedded over `List Char`.
Scores are modelled as rationals; Python string indices become list offsets.
-/

namespace NEReus

/-- The inner `while` loop of `find_matching_substring`, started at a fixed
start offset: walks the line suffix `cs`, consuming one character per step.
A character that (lowered) equals the next expected word character advances
the word pointer; a non-alphabetic character is skipped; an alphabetic
mismatch aborts.  Returns the number of line characters consumed and the
remaining (unmatched) part of the lowered word. -/
def walk : List Char → List Char → Nat × List Char
  | _, [] => (0, [])
  | [], a :: w => (0, a :: w)
  | c :: cs, a :: w =>
    if c.toLower = a then Prod.map (· + 1) id (walk cs w)
    else if (c.toLower).isAlpha then (0, a :: w)
    else Prod.map (· + 1) id (walk cs (a :: w))

/-- The walk from start offset `s` of `line`, against the lowered word `wl`. -/
def walkAt (line wl : List Char) (s : Nat) : Nat × List Char :=
  walk (line.drop s) wl

/-- The walk from start offset `s` consumes the whole word
(`word_idx == len(word_lower)` in the source). -/
def succAt (line wl : List Char) (s : Nat) : Prop :=
  (walkAt line wl s).2 = []

instance (line wl : List Char) (s : Nat) : Decidable (succAt line wl s) := by
  unfold succAt; infer_instance

/-- The compactness score of the window found from start offset `s`:
`word_idx / max(1, end_pos - start_pos)` in the source. -/
def scoreAt (line wl : List Char) (s : Nat) : ℚ :=
  (wl.length : ℚ) / ((max 1 (walkAt line wl s).1 : ℕ) : ℚ)

/-- One iteration of the outer `for start_pos in range(len(line_text))` loop:
if the walk from `s` matched the whole word and its score strictly exceeds
the retained best score, replace the best (score, start, end) triple. -/
def fmsStep (line wl : List Char) (st : ℚ × Int × Int) (s : Nat) : ℚ × Int × Int :=
  if (walkAt line wl s).2 = [] then
    if st.1 < scoreAt line wl s then
      (scoreAt line wl s, (s : Int), (s : Int) + ((walkAt line wl s).1 : Int))
    else st
  else st

/-- The outer loop of `find_matching_substring`: `m` remaining start offsets,
next start offset `s`, running best state `st`. -/
def fmsGo (line wl : List Char) : Nat → Nat → ℚ × Int × Int → ℚ × Int × Int
  | 0, _, st => st
  | m + 1, s, st => fmsGo line wl m (s + 1) (fmsStep line wl st s)

/-- The function `find_matching_substring(line_text, word)`: lowers the word once, scans
every start offset left to right, and returns the best (start, end) pair,
or the sentinel `(-1, -1)` when no start offset matches the whole word. -/
def findMatchingSubstring (line word : List Char) : Int × Int :=
  (fmsGo line (word.map Char.toLower) line.length 0 (0, -1, -1)).2

/-- Declarative matching: the (lowered) word occurs in order at the front of
the line suffix, with every interspersed character non-alphabetic.  This is
the spec-level notion of a noise-tolerant occurrence of the word. -/
def okFrom : List Char → List Char → Bool
  | _, [] => true
  | [], _ :: _ => false
  | c :: cs, a :: w =>
    (c.toLower == a && okFrom cs w) || (!(c.toLower).isAlpha && okFrom cs (a :: w))

/-- The per-line score recomputed by `find_matching_line` from the span
returned by `find_matching_substring`:
`len(word) / max(1, end - start)` when a match exists, `0` otherwise
(a no-match line never enters the comparison, and the running best starts
at `0`). -/
def lineScore (l word : List Char) : ℚ :=
  if (findMatchingSubstring l word).1 = -1 then 0
  else
    (word.length : ℚ) /
      ((max 1 ((findMatchingSubstring l word).2 - (findMatchingSubstring l word).1) : Int) : ℚ)

/-- One iteration of the loop of `find_matching_line`: if line `l` has a
match and its score strictly exceeds the running best, record its index. -/
def flStep (word : List Char) (st : ℚ × Nat) (idx : Nat) (l : List Char) : ℚ × Nat :=
  if (findMatchingSubstring l word).1 ≠ -1 then
    if st.1 <
        (word.length : ℚ) /
          ((max 1 ((findMatchingSubstring l word).2 - (findMatchingSubstring l word).1) : Int) : ℚ)
      then
      ((word.length : ℚ) /
          ((max 1 ((findMatchingSubstring l word).2 - (findMatchingSubstring l word).1) : Int) : ℚ),
        idx)
    else st
  else st

/-- The enumeration loop of `find_matching_line` over the remaining lines,
carrying the index of the next line and the running best (score, index). -/
def flGo (word : List Char) : List (List Char) → Nat → ℚ × Nat → ℚ × Nat
  | [], _, st => st
  | l :: rest, idx, st => flGo word rest (idx + 1) (flStep word st idx l)

/-- The function `find_matching_line(word, inscription_lines)`: returns the index of the
best-scoring line together with that line's text.  An empty word or an empty
line list short-circuits to index `0` with the first line (or the empty
string when there are no lines). -/
def find_matching_line (word : List Char) (lines : List (List Char)) : Nat × List Char :=
  if word = [] ∨ lines = [] then (0, lines.headD [])
  else
    (((flGo word lines 0 (0, 0)).2 : Nat), lines.getD (flGo word lines 0 (0, 0)).2 [])

/-- The function `create_highlighted_text(line_text, word)`, with the rich-text result
modelled as a list of `(text, bold)` segments: an empty word or line gives
the whole line unemphasised; a sentinel match gives the whole line
unemphasised; otherwise the (possibly empty, then omitted) prefix before
`start`, the emphasised window `[start, end)`, and the (possibly empty,
then omitted) suffix after `end`. -/
def create_highlighted_text (line word : List Char) : List (List Char × Bool) :=
  if word = [] ∨ line = [] then [(line, false)]
  else
    if (findMatchingSubstring line word).1 = -1 then [(line, false)]
    else
      (if 0 < (findMatchingSubstring line word).1 then
          [(line.take (findMatchingSubstring line word).1.toNat, false)]
        else []) ++
      [((line.take (findMatchingSubstring line word).2.toNat).drop
          (findMatchingSubstring line word).1.toNat, true)] ++
      (if (findMatchingSubstring line word).2 < (line.length : Int) then
          [(line.drop (findMatchingSubstring line word).2.toNat, false)]
        else [])

/-! ### Basic facts about `walk` -/

theorem walk_nil_right (cs : List Char) : walk cs [] = (0, []) := by
  cases cs <;> rfl

theorem walk_cons_cons (c : Char) (cs : List Char) (a : Char) (w : List Char) :
    walk (c :: cs) (a :: w) =
      if c.toLower = a then Prod.map (· + 1) id (walk cs w)
      else if (c.toLower).isAlpha then (0, a :: w)
      else Prod.map (· + 1) id (walk cs (a :: w)) := by
  rfl

/-- The walk never consumes more characters than the line suffix has. -/
theorem walk_fst_le (cs : List Char) : ∀ wl : List Char, (walk cs wl).1 ≤ cs.length := by
  induction cs with
  | nil => intro wl; cases wl <;> simp [walk]
  | cons c cs ih =>
    intro wl
    cases wl with
    | nil => simp [walk_nil_right]
    | cons a w =>
      rw [walk_cons_cons]
      split
      · rcases h : walk cs w with ⟨n, r⟩
        have := ih w
        rw [h] at this
        simpa using Nat.succ_le_succ this
      · split
        · simp
        · rcases h : walk cs (a :: w) with ⟨n, r⟩
          have := ih (a :: w)
          rw [h] at this
          simpa using Nat.succ_le_succ this

/-- A successful walk consumes at least one character per word character. -/
theorem walk_length_le_of_success (cs : List Char) :
    ∀ wl : List Char, (walk cs wl).2 = [] → wl.length ≤ (walk cs wl).1 := by
  induction cs with
  | nil =>
    intro wl h
    cases wl with
    | nil => simp [walk]
    | cons a w => simp [walk] at h
  | cons c cs ih =>
    intro wl h
    cases wl with
    | nil => simp [walk_nil_right]
    | cons a w =>
      rw [walk_cons_cons] at h ⊢
      by_cases hc : c.toLower = a
      · rw [if_pos hc] at h ⊢
        rcases hw : walk cs w with ⟨n, r⟩
        simp only [Prod.map, id] at h ⊢
        have h3 : w.length ≤ (walk cs w).1 := ih w h
        rw [hw] at h3
        simp only [List.length_cons]
        omega
      · rw [if_neg hc] at h ⊢
        by_cases ha : (c.toLower).isAlpha
        · rw [if_pos ha] at h
          simp at h
        · rw [if_neg ha] at h ⊢
          rcases hw : walk cs (a :: w) with ⟨n, r⟩
          simp only [Prod.map, id] at h ⊢
          have h3 : (a :: w).length ≤ (walk cs (a :: w)).1 := ih (a :: w) h
          rw [hw] at h3
          simp only [List.length_cons] at h3 ⊢
          omega

/-- A successful walk that consumed exactly one character per word character
matched every window character: the lowered window is the lowered word. -/
theorem walk_exact (cs : List Char) :
    ∀ wl n, walk cs wl = (n, []) → n = wl.length →
      (cs.take n).map Char.toLower = wl := by
  induction cs with
  | nil =>
    intro wl n h hn
    cases wl with
    | nil =>
      have : n = 0 := by simpa using hn
      simp [this]
    | cons a w => simp [walk] at h
  | cons c cs ih =>
    intro wl n h hn
    cases wl with
    | nil =>
      rw [walk_nil_right] at h
      have : n = 0 := by simpa using hn
      simp [this]
    | cons a w =>
      rw [walk_cons_cons] at h
      by_cases hc : c.toLower = a
      · rw [if_pos hc] at h
        rcases hw : walk cs w with ⟨n', r⟩
        rw [hw] at h
        obtain ⟨hn1, hr⟩ : n' + 1 = n ∧ r = [] := by simpa using h
        simp only [List.length_cons] at hn
        have hn' : n' = w.length := by omega
        have hIH := ih w n' (by rw [hw, hr]) hn'
        subst hn1
        simp [List.take_succ_cons, hIH, hc]
      · rw [if_neg hc] at h
        by_cases ha : (c.toLower).isAlpha
        · rw [if_pos ha] at h
          simp at h
        · rw [if_neg ha] at h
          rcases hw : walk cs (a :: w) with ⟨n', r⟩
          rw [hw] at h
          obtain ⟨hn1, hr⟩ : n' + 1 = n ∧ r = [] := by simpa using h
          have hlen : (a :: w).length ≤ (walk cs (a :: w)).1 :=
            walk_length_le_of_success cs (a :: w) (by rw [hw, hr])
          rw [hw] at hlen
          simp only [List.length_cons] at hlen hn
          omega

/-- A successful walk on a non-empty word ends right after the last matched
character: the last character of the consumed window lowers to the last
character of the lowered word. -/
theorem walk_last (cs : List Char) :
    ∀ wl n, wl ≠ [] → walk cs wl = (n, []) →
      ((cs.take n).map Char.toLower).getLast? = wl.getLast? := by
  induction cs with
  | nil =>
    intro wl n hwl h
    cases wl with
    | nil => exact absurd rfl hwl
    | cons a w => simp [walk] at h
  | cons c cs ih =>
    intro wl n hwl h
    cases wl with
    | nil => exact absurd rfl hwl
    | cons a w =>
      rw [walk_cons_cons] at h
      by_cases hc : c.toLower = a
      · rw [if_pos hc] at h
        rcases hw : walk cs w with ⟨n', r⟩
        rw [hw] at h
        obtain ⟨hn1, hr⟩ : n' + 1 = n ∧ r = [] := by simpa using h
        subst hn1
        cases w with
        | nil =>
          have : n' = 0 := by
            have := walk_fst_le cs []
            rw [walk_nil_right] at hw
            simp at hw
            omega
          subst this
          simp [hc]
        | cons b w' =>
          have hne : (b :: w') ≠ ([] : List Char) := by simp
          have hIH := ih (b :: w') n' hne (by rw [hw, hr])
          have hn'pos : 1 ≤ n' := by
            have := walk_length_le_of_success cs (b :: w') (by rw [hw, hr])
            rw [hw] at this
            simp only [List.length_cons] at this
            omega
          have hlen2 : n' ≤ cs.length := by
            have := walk_fst_le cs (b :: w')
            rw [hw] at this
            exact this
          have htake : cs.take n' ≠ [] := by
            intro hcontra
            have : (cs.take n').length = 0 := by rw [hcontra]; rfl
            rw [List.length_take] at this
            omega
          obtain ⟨x, xs, hx⟩ := List.exists_cons_of_ne_nil htake
          rw [List.take_succ_cons, List.map_cons, hx, List.map_cons,
            List.getLast?_cons_cons, ← List.map_cons, ← hx, hIH,
            List.getLast?_cons_cons]
      · rw [if_neg hc] at h
        by_cases ha : (c.toLower).isAlpha
        · rw [if_pos ha] at h
          simp at h
        · rw [if_neg ha] at h
          rcases hw : walk cs (a :: w) with ⟨n', r⟩
          rw [hw] at h
          obtain ⟨hn1, hr⟩ : n' + 1 = n ∧ r = [] := by simpa using h
          subst hn1
          have hIH := ih (a :: w) n' hwl (by rw [hw, hr])
          have hn'pos : 1 ≤ n' := by
            have := walk_length_le_of_success cs (a :: w) (by rw [hw, hr])
            rw [hw] at this
            simp only [List.length_cons] at this
            omega
          have hlen2 : n' ≤ cs.length := by
            have := walk_fst_le cs (a :: w)
            rw [hw] at this
            exact this
          have htake : cs.take n' ≠ [] := by
            intro hcontra
            have : (cs.take n').length = 0 := by rw [hcontra]; rfl
            rw [List.length_take] at this
            omega
          obtain ⟨x, xs, hx⟩ := List.exists_cons_of_ne_nil htake
          rw [List.take_succ_cons, List.map_cons, hx, List.map_cons,
            List.getLast?_cons_cons, ← List.map_cons, ← hx, hIH]

/-- Skipping a non-alphabetic expected character preserves declarative
matchability: if `a` is non-alphabetic and `a :: w` matches, so does `w`. -/
theorem okFrom_of_cons_not_alpha (cs : List Char) :
    ∀ (a : Char) (w : List Char), ¬ a.isAlpha → okFrom cs (a :: w) = true →
      okFrom cs w = true := by
  induction cs with
  | nil => intro a w _ h; simp [okFrom] at h
  | cons c cs ih =>
    intro a w ha h
    cases w with
    | nil => simp [okFrom]
    | cons b w' =>
      simp only [okFrom, Bool.or_eq_true, Bool.and_eq_true, beq_iff_eq,
        Bool.not_eq_true'] at h ⊢
      rcases h with ⟨hc, h1⟩ | ⟨hna, h2⟩
      · right
        constructor
        · rw [hc]
          exact Bool.not_eq_true _ ▸ (by simpa using ha)
        · exact h1
      · right
        exact ⟨hna, ih a (b :: w') ha h2⟩

/-- Greedy dominance: whenever the word declaratively matches at the front of
a line suffix, the greedy walk of the source code also matches it. -/
theorem walk_of_okFrom (cs : List Char) :
    ∀ wl, okFrom cs wl = true → (walk cs wl).2 = [] := by
  induction cs with
  | nil =>
    intro wl h
    cases wl with
    | nil => simp [walk]
    | cons a w => simp [okFrom] at h
  | cons c cs ih =>
    intro wl h
    cases wl with
    | nil => simp [walk_nil_right]
    | cons a w =>
      rw [walk_cons_cons]
      simp only [okFrom, Bool.or_eq_true, Bool.and_eq_true, beq_iff_eq,
        Bool.not_eq_true'] at h
      by_cases hc : c.toLower = a
      · rw [if_pos hc]
        rcases h with ⟨_, h1⟩ | ⟨hna, h2⟩
        · rcases hw : walk cs w with ⟨n, r⟩
          have := ih w h1
          rw [hw] at this
          simpa using this
        · have hana : ¬ a.isAlpha := by rw [← hc]; simp [hna]
          have h1 : okFrom cs w = true := okFrom_of_cons_not_alpha cs a w hana h2
          rcases hw : walk cs w with ⟨n, r⟩
          have := ih w h1
          rw [hw] at this
          simpa using this
      · rw [if_neg hc]
        rcases h with ⟨hc', _⟩ | ⟨hna, h2⟩
        · exact absurd hc' hc
        · rw [if_neg (by simp [hna])]
          rcases hw : walk cs (a :: w) with ⟨n, r⟩
          have := ih (a :: w) h2
          rw [hw] at this
          simpa using this

/-! ### The outer scan loop invariant -/

/-- Full characterisation of the scan loop `fmsGo` over start offsets
`[s, s + m)`: either the best state is unchanged and no successful start in
range strictly beats the incoming best score, or the final state records a
successful start `t` in range whose score strictly beats the incoming best,
is maximal over the range, and strictly beats every earlier successful
start. -/
theorem fmsGo_spec (line wl : List Char) (m : Nat) :
    ∀ (s : Nat) (b : ℚ) (i j : Int),
      b ≤ (fmsGo line wl m s (b, i, j)).1 ∧
      ((fmsGo line wl m s (b, i, j) = (b, i, j) ∧
          ∀ t, s ≤ t → t < s + m → succAt line wl t → scoreAt line wl t ≤ b) ∨
        ∃ t, s ≤ t ∧ t < s + m ∧ succAt line wl t ∧
          fmsGo line wl m s (b, i, j) =
            (scoreAt line wl t, (t : Int), (t : Int) + ((walkAt line wl t).1 : Int)) ∧
          b < scoreAt line wl t ∧
          (∀ u, s ≤ u → u < s + m → succAt line wl u →
            scoreAt line wl u ≤ scoreAt line wl t) ∧
          (∀ u, s ≤ u → u < t → succAt line wl u →
            scoreAt line wl u < scoreAt line wl t)) := by
  induction m with
  | zero =>
    intro s b i j
    refine ⟨le_refl b, Or.inl ⟨rfl, ?_⟩⟩
    intro t h1 h2
    omega
  | succ m ih =>
    intro s b i j
    have hunfold : fmsGo line wl (m + 1) s (b, i, j) =
        fmsGo line wl m (s + 1) (fmsStep line wl (b, i, j) s) := rfl
    by_cases hsucc : (walkAt line wl s).2 = []
    · by_cases himp : b < scoreAt line wl s
      · -- the walk from s succeeds and strictly improves the best score
        have hstep : fmsStep line wl (b, i, j) s =
            (scoreAt line wl s, (s : Int), (s : Int) + ((walkAt line wl s).1 : Int)) := by
          simp [fmsStep, hsucc, himp]
        rw [hunfold, hstep]
        obtain ⟨ih1, ih2⟩ := ih (s + 1) (scoreAt line wl s) (s : Int)
          ((s : Int) + ((walkAt line wl s).1 : Int))
        refine ⟨le_trans (le_of_lt himp) ih1, Or.inr ?_⟩
        rcases ih2 with ⟨heq, hbound⟩ | ⟨t, ht1, ht2, htsucc, heq, hlt, hmax, hleft⟩
        · refine ⟨s, le_refl s, by omega, hsucc, heq, himp, ?_, ?_⟩
          · intro u hu1 hu2 husucc
            rcases Nat.lt_or_ge u (s + 1) with hu3 | hu3
            · have : u = s := by omega
              subst this
              exact le_refl _
            · exact hbound u hu3 (by omega) husucc
          · intro u hu1 hu2
            omega
        · refine ⟨t, by omega, by omega, htsucc, heq, lt_trans himp hlt, ?_, ?_⟩
          · intro u hu1 hu2 husucc
            rcases Nat.lt_or_ge u (s + 1) with hu3 | hu3
            · have : u = s := by omega
              subst this
              exact le_of_lt hlt
            · exact hmax u hu3 (by omega) husucc
          · intro u hu1 hu2 husucc
            rcases Nat.lt_or_ge u (s + 1) with hu3 | hu3
            · have : u = s := by omega
              subst this
              exact hlt
            · exact hleft u hu3 hu2 husucc
      · -- the walk from s succeeds but does not improve the best score
        have hstep : fmsStep line wl (b, i, j) s = (b, i, j) := by
          simp [fmsStep, hsucc, himp]
        rw [hunfold, hstep]
        obtain ⟨ih1, ih2⟩ := ih (s + 1) b i j
        refine ⟨ih1, ?_⟩
        rcases ih2 with ⟨heq, hbound⟩ | ⟨t, ht1, ht2, htsucc, heq, hlt, hmax, hleft⟩
        · refine Or.inl ⟨heq, ?_⟩
          intro t ht1 ht2 htsucc
          rcases Nat.lt_or_ge t (s + 1) with ht3 | ht3
          · have : t = s := by omega
            subst this
            exact le_of_not_lt himp
          · exact hbound t ht3 (by omega) htsucc
        · refine Or.inr ⟨t, by omega, by omega, htsucc, heq, hlt, ?_, ?_⟩
          · intro u hu1 hu2 husucc
            rcases Nat.lt_or_ge u (s + 1) with hu3 | hu3
            · have : u = s := by omega
              subst this
              exact le_trans (le_of_not_lt himp) (le_of_lt hlt)
            · exact hmax u hu3 (by omega) husucc
          · intro u hu1 hu2 husucc
            rcases Nat.lt_or_ge u (s + 1) with hu3 | hu3
            · have : u = s := by omega
              subst this
              exact lt_of_le_of_lt (le_of_not_lt himp) hlt
            · exact hleft u hu3 hu2 husucc
    · -- the walk from s does not match the whole word
      have hstep : fmsStep line wl (b, i, j) s = (b, i, j) := by
        simp [fmsStep, hsucc]
      rw [hunfold, hstep]
      obtain ⟨ih1, ih2⟩ := ih (s + 1) b i j
      refine ⟨ih1, ?_⟩
      rcases ih2 with ⟨heq, hbound⟩ | ⟨t, ht1, ht2, htsucc, heq, hlt, hmax, hleft⟩
      · refine Or.inl ⟨heq, ?_⟩
        intro t ht1 ht2 htsucc
        rcases Nat.lt_or_ge t (s + 1) with ht3 | ht3
        · have : t = s := by omega
          subst this
          exact absurd htsucc hsucc
        · exact hbound t ht3 (by omega) htsucc
      · refine Or.inr ⟨t, by omega, by omega, htsucc, heq, hlt, ?_, ?_⟩
        · intro u hu1 hu2 husucc
          rcases Nat.lt_or_ge u (s + 1) with hu3 | hu3
          · have : u = s := by omega
            subst this
            exact absurd husucc hsucc
          · exact hmax u hu3 (by omega) husucc
        · intro u hu1 hu2 husucc
          rcases Nat.lt_or_ge u (s + 1) with hu3 | hu3
          · have : u = s := by omega
            subst this
            exact absurd husucc hsucc
          · exact hleft u hu3 hu2 husucc

/-! ### Consequences for `findMatchingSubstring` -/

theorem scoreAt_nil (line : List Char) (s : Nat) : scoreAt line [] s = 0 := by
  simp [scoreAt]

theorem scoreAt_pos (line wl : List Char) (s : Nat) (hwl : wl ≠ []) :
    0 < scoreAt line wl s := by
  unfold scoreAt
  apply div_pos
  · have : 0 < wl.length := List.length_pos.mpr hwl
    exact_mod_cast this
  · have : 0 < max 1 (walkAt line wl s).1 := by omega
    exact_mod_cast this

theorem succAt_lt_length (line wl : List Char) (u : Nat) (hwl : wl ≠ [])
    (h : succAt line wl u) : u < line.length := by
  by_contra hc
  have hdrop : line.drop u = [] := List.drop_eq_nil_of_le (by omega)
  unfold succAt walkAt at h
  rw [hdrop] at h
  cases wl with
  | nil => exact absurd rfl hwl
  | cons a w => simp [walk] at h

/-- Case analysis for `find_matching_substring`: either the sentinel is
returned and no start offset matches with positive score, or the result is
the window of a successful start offset whose score is positive, maximal,
and strictly above every earlier successful start offset. -/
theorem fms_cases (line word : List Char) :
    (findMatchingSubstring line word = (-1, -1) ∧
        ∀ t, succAt line (word.map Char.toLower) t →
          scoreAt line (word.map Char.toLower) t ≤ 0) ∨
      ∃ t, t < line.length ∧ succAt line (word.map Char.toLower) t ∧
        findMatchingSubstring line word =
          ((t : Int), (t : Int) + ((walkAt line (word.map Char.toLower) t).1 : Int)) ∧
        0 < scoreAt line (word.map Char.toLower) t ∧
        (∀ u, succAt line (word.map Char.toLower) u →
          scoreAt line (word.map Char.toLower) u ≤ scoreAt line (word.map Char.toLower) t) ∧
        (∀ u, u < t → succAt line (word.map Char.toLower) u →
          scoreAt line (word.map Char.toLower) u < scoreAt line (word.map Char.toLower) t) := by
  set wl := word.map Char.toLower with hwl
  obtain ⟨h1, h2⟩ := fmsGo_spec line wl line.length 0 0 (-1) (-1)
  rcases h2 with ⟨heq, hbound⟩ | ⟨t, ht1, ht2, htsucc, heq, hlt, hmax, hleft⟩
  · left
    constructor
    · unfold findMatchingSubstring
      rw [← hwl, heq]
    · intro t htsucc
      by_cases hnil : wl = []
      · rw [hnil, scoreAt_nil]
      · have htlt : t < line.length := succAt_lt_length line wl t hnil htsucc
        exact hbound t (by omega) (by omega) htsucc
  · right
    have hnil : wl ≠ [] := by
      intro hcontra
      rw [hcontra, scoreAt_nil] at hlt
      exact absurd hlt (by norm_num)
    refine ⟨t, by omega, htsucc, ?_, hlt, ?_, ?_⟩
    · unfold findMatchingSubstring
      rw [← hwl, heq]
    · intro u husucc
      have hult : u < line.length := succAt_lt_length line wl u hnil husucc
      exact hmax u (by omega) (by omega) husucc
    · intro u hu husucc
      exact hleft u (by omega) hu husucc

/-- Inversion: a non-sentinel result comes from a successful start offset
with positive, maximal, first-attained score. -/
theorem fms_inversion (line word : List Char) (s e : Int)
    (h : findMatchingSubstring line word = (s, e)) (hs : s ≠ -1) :
    ∃ t : Nat, s = (t : Int) ∧
      e = (t : Int) + ((walkAt line (word.map Char.toLower) t).1 : Int) ∧
      t < line.length ∧ succAt line (word.map Char.toLower) t ∧
      0 < scoreAt line (word.map Char.toLower) t ∧
      (∀ u, succAt line (word.map Char.toLower) u →
        scoreAt line (word.map Char.toLower) u ≤ scoreAt line (word.map Char.toLower) t) ∧
      (∀ u, u < t → succAt line (word.map Char.toLower) u →
        scoreAt line (word.map Char.toLower) u < scoreAt line (word.map Char.toLower) t) ∧
      word ≠ [] := by
  rcases fms_cases line word with ⟨heq, _⟩ | ⟨t, ht1, ht2, heq, hpos, hmax, hleft⟩
  · rw [h] at heq
    exact absurd (congrArg Prod.fst heq) (by simpa using hs)
  · rw [h] at heq
    have hse : s = (t : Int) ∧
        e = (t : Int) + ((walkAt line (word.map Char.toLower) t).1 : Int) := by
      constructor
      · exact congrArg Prod.fst heq
      · exact congrArg Prod.snd heq
    have hw : word ≠ [] := by
      intro hcontra
      subst hcontra
      simp only [List.map_nil, scoreAt_nil] at hpos
      exact absurd hpos (by norm_num)
    exact ⟨t, hse.1, hse.2, ht1, ht2, hpos, hmax, hleft, hw⟩

/-- Determination, sentinel case: if no start offset matches the whole word,
the result is the sentinel. -/
theorem fms_eq_sentinel (line word : List Char)
    (h : ∀ t, t < line.length → ¬ succAt line (word.map Char.toLower) t) :
    findMatchingSubstring line word = (-1, -1) := by
  rcases fms_cases line word with ⟨heq, _⟩ | ⟨t, ht1, ht2, _⟩
  · exact heq
  · exact absurd ht2 (h t ht1)

/-- Determination, found case: a successful start offset whose score is
positive, maximal, and strictly above every earlier successful start offset
is the one returned. -/
theorem fms_eq_found (line word : List Char) (t : Nat) (ht : t < line.length)
    (hs : succAt line (word.map Char.toLower) t)
    (h0 : 0 < scoreAt line (word.map Char.toLower) t)
    (hmax : ∀ u, u < line.length → succAt line (word.map Char.toLower) u →
      scoreAt line (word.map Char.toLower) u ≤ scoreAt line (word.map Char.toLower) t)
    (hleft : ∀ u, u < t → succAt line (word.map Char.toLower) u →
      scoreAt line (word.map Char.toLower) u < scoreAt line (word.map Char.toLower) t) :
    findMatchingSubstring line word =
      ((t : Int), (t : Int) + ((walkAt line (word.map Char.toLower) t).1 : Int)) := by
  rcases fms_cases line word with ⟨_, hbound⟩ | ⟨t', ht1', ht2', heq, _, hmax', hleft'⟩
  · exact absurd h0 (not_lt_of_le (hbound t hs))
  · rcases Nat.lt_trichotomy t t' with hlt | heq2 | hgt
    · exact absurd (hmax t' ht1' ht2') (not_le_of_lt (hleft' t hlt hs))
    · subst heq2
      exact heq
    · exact absurd (hmax' t hs) (not_le_of_lt (hleft t' hgt ht2'))

/-- The empty word never matches: the sentinel is returned. -/
theorem fms_nil_word (line : List Char) : findMatchingSubstring line [] = (-1, -1) := by
  rcases fms_cases line [] with ⟨heq, _⟩ | ⟨t, _, _, _, hpos, _⟩
  · exact heq
  · simp only [List.map_nil, scoreAt_nil] at hpos
    exact absurd hpos (by norm_num)

/-- The empty line never matches: the sentinel is returned. -/
theorem fms_nil_line (word : List Char) : findMatchingSubstring [] word = (-1, -1) := rfl

/-- Offsets of a non-sentinel result are in bounds: `0 ≤ s < e ≤ length`. -/
theorem fms_bounds (line word : List Char) (s e : Int)
    (h : findMatchingSubstring line word = (s, e)) (hs : s ≠ -1) :
    0 ≤ s ∧ s < e ∧ e ≤ (line.length : Int) := by
  obtain ⟨t, hst, het, htlt, htsucc, _, _, _, hw⟩ := fms_inversion line word s e h hs
  have hwl : (word.map Char.toLower) ≠ [] := by
    simpa using hw
  have hlen : (word.map Char.toLower).length ≤ (walkAt line (word.map Char.toLower) t).1 :=
    walk_length_le_of_success _ _ htsucc
  have hwpos : 0 < (word.map Char.toLower).length := List.length_pos.mpr hwl
  have hle : (walkAt line (word.map Char.toLower) t).1 ≤ line.length - t := by
    have := walk_fst_le (line.drop t) (word.map Char.toLower)
    rw [List.length_drop] at this
    exact this
  refine ⟨?_, ?_, ?_⟩
  · rw [hst]; exact_mod_cast Int.ofNat_nonneg t
  · rw [hst, het]
    have : 0 < (walkAt line (word.map Char.toLower) t).1 := by omega
    omega
  · rw [het]
    omega

/-! ### Claim theorems about the Aligner -/

/-- C7: whenever `find_matching_substring(line, word)` returns a non-sentinel
span `(start, end)`, the offsets satisfy `0 <= start < end <= length(line)`,
so the renderer's three slices are always within bounds. -/
theorem c7_span_bounds (line word : List Char) (s e : Int)
    (h : findMatchingSubstring line word = (s, e)) (hs : s ≠ -1) :
    0 ≤ s ∧ s < e ∧ e ≤ (line.length : Int) :=
  fms_bounds line word s e h hs

/-- C1: for a non-empty word, any non-sentinel span `(start, end)` returned
by `find_matching_substring` has score `len(word) / (end - start)` with
`0 < score ≤ 1`, and `score = 1` exactly when every character of the window
`[start, end)` was consumed as a match (the lowered window is the lowered
word, so no non-alphabetic character was skipped and the window length
equals the word length). -/
theorem c1_score_bounds (line word : List Char) (hw : word ≠ []) (s e : Int)
    (h : findMatchingSubstring line word = (s, e)) (hs : s ≠ -1) :
    0 < (word.length : ℚ) / ((e - s : Int) : ℚ) ∧
      (word.length : ℚ) / ((e - s : Int) : ℚ) ≤ 1 ∧
      ((word.length : ℚ) / ((e - s : Int) : ℚ) = 1 ↔
        ((line.drop s.toNat).take (e - s).toNat).map Char.toLower =
          word.map Char.toLower) := by
  obtain ⟨t, hst, het, htlt, htsucc, hpos, hmax, hleft, _⟩ :=
    fms_inversion line word s e h hs
  have h2 : (walkAt line (word.map Char.toLower) t).2 = [] := htsucc
  have hlenw : (word.map Char.toLower).length = word.length := List.length_map _ _
  have hw1 : 0 < word.length := List.length_pos.mpr hw
  have hnw : word.length ≤ (walkAt line (word.map Char.toLower) t).1 := by
    rw [← hlenw]
    exact walk_length_le_of_success _ _ h2
  have hnle : (walkAt line (word.map Char.toLower) t).1 ≤ line.length - t := by
    have := walk_fst_le (line.drop t) (word.map Char.toLower)
    rw [List.length_drop] at this
    exact this
  have hes : e - s = ((walkAt line (word.map Char.toLower) t).1 : Int) := by
    rw [hst, het]
    ring
  have hcast : ((e - s : Int) : ℚ) = ((walkAt line (word.map Char.toLower) t).1 : ℚ) := by
    rw [hes]
    push_cast
    rfl
  have hnpos : 0 < (walkAt line (word.map Char.toLower) t).1 := by omega
  have hnQ : (0 : ℚ) < ((walkAt line (word.map Char.toLower) t).1 : ℚ) := by
    exact_mod_cast hnpos
  have hst' : s.toNat = t := by rw [hst]; simp
  have hes' : (e - s).toNat = (walkAt line (word.map Char.toLower) t).1 := by
    rw [hes]
    simp
  have hpair : walk (line.drop t) (word.map Char.toLower) =
      ((walkAt line (word.map Char.toLower) t).1, []) := by
    rw [← h2]
    rfl
  rw [hcast]
  refine ⟨?_, ?_, ?_⟩
  · exact div_pos (by exact_mod_cast hw1) hnQ
  · rw [div_le_one hnQ]
    exact_mod_cast hnw
  · rw [div_eq_one_iff_eq (ne_of_gt hnQ)]
    constructor
    · intro heq
      have hn_eq : (walkAt line (word.map Char.toLower) t).1 = word.length := by
        exact_mod_cast heq.symm
      rw [hst', hes']
      exact walk_exact (line.drop t) (word.map Char.toLower)
        (walkAt line (word.map Char.toLower) t).1 hpair (by omega)
    · intro heq
      rw [hst', hes'] at heq
      have hlen1 := congrArg List.length heq
      rw [List.length_map, List.length_map, List.length_take, List.length_drop] at hlen1
      have : (walkAt line (word.map Char.toLower) t).1 = word.length := by omega
      rw [this]

/-- C10: for a non-empty word, a non-sentinel span returned by
`find_matching_substring` never begins or ends with a skipped noise
character: the line character at `start` (head of the suffix from `start`)
lowers to the word's first character (lowered), and the character at
`end - 1` (last of the prefix up to `end`) lowers to the word's last
character (lowered). -/
theorem c10_window_endpoints (line word : List Char) (hw : word ≠ []) (s e : Int)
    (h : findMatchingSubstring line word = (s, e)) (hs : s ≠ -1) :
    ((line.drop s.toNat).head?).map Char.toLower = word.head?.map Char.toLower ∧
      ((line.take e.toNat).getLast?).map Char.toLower =
        word.getLast?.map Char.toLower := by
  obtain ⟨t, hst, het, htlt, htsucc, hpos, hmax, hleft, _⟩ :=
    fms_inversion line word s e h hs
  have h2 : (walkAt line (word.map Char.toLower) t).2 = [] := htsucc
  have hwlne : (word.map Char.toLower) ≠ [] := by simpa using hw
  have hlenw : (word.map Char.toLower).length = word.length := List.length_map _ _
  have hw1 : 0 < word.length := List.length_pos.mpr hw
  have hnw : word.length ≤ (walkAt line (word.map Char.toLower) t).1 := by
    rw [← hlenw]
    exact walk_length_le_of_success _ _ h2
  have hnle : (walkAt line (word.map Char.toLower) t).1 ≤ line.length - t := by
    have := walk_fst_le (line.drop t) (word.map Char.toLower)
    rw [List.length_drop] at this
    exact this
  have hst' : s.toNat = t := by rw [hst]; simp
  have het' : e.toNat = t + (walkAt line (word.map Char.toLower) t).1 := by
    rw [het]
    omega
  have hpair : walk (line.drop t) (word.map Char.toLower) =
      ((walkAt line (word.map Char.toLower) t).1, []) := by
    rw [← h2]
    rfl
  have hdropne : line.drop t ≠ [] := by
    apply List.ne_nil_of_length_pos
    rw [List.length_drop]
    omega
  obtain ⟨c0, cs0, hdrop⟩ := List.exists_cons_of_ne_nil hdropne
  have hdrop1 : line.drop (t + 1) = cs0 := by
    have := List.drop_drop 1 t line
    rw [hdrop] at this
    simpa using this.symm
  constructor
  · -- the window starts with a matched character
    obtain ⟨a, w, hword⟩ := List.exists_cons_of_ne_nil hw
    have hwlc : word.map Char.toLower = a.toLower :: w.map Char.toLower := by
      rw [hword]
      rfl
    rw [hst', hdrop, hword]
    by_cases hc : c0.toLower = a.toLower
    · simp [hc]
    · exfalso
      by_cases ha : (c0.toLower).isAlpha
      · -- an alphabetic mismatch at the start would abort the walk
        have habort : walk (line.drop t) (word.map Char.toLower) =
            (0, a.toLower :: w.map Char.toLower) := by
          rw [hdrop, hwlc, walk_cons_cons, if_neg hc, if_pos ha]
        rw [hpair] at habort
        exact absurd (congrArg Prod.snd habort) (by simp)
      · -- a skipped noise character at the start is strictly outscored
        -- by the window starting one character later
        have hwalk : walk (line.drop t) (word.map Char.toLower) =
            Prod.map (· + 1) id (walk cs0 (word.map Char.toLower)) := by
          rw [hdrop, hwlc, walk_cons_cons, if_neg hc, if_neg ha, ← hwlc]
        rw [hpair] at hwalk
        rcases hw2 : walk cs0 (word.map Char.toLower) with ⟨n', r'⟩
        rw [hw2] at hwalk
        obtain ⟨hn1, hr⟩ :
            (walkAt line (word.map Char.toLower) t).1 = n' + 1 ∧ [] = r' := by
          simpa using hwalk
        have hsucc1 : succAt line (word.map Char.toLower) (t + 1) := by
          show (walk (line.drop (t + 1)) (word.map Char.toLower)).2 = []
          rw [hdrop1, hw2, ← hr]
        have hn'ge : (word.map Char.toLower).length ≤ n' := by
          have hh := walk_length_le_of_success cs0 (word.map Char.toLower)
            (by rw [hw2, ← hr])
          rw [hw2] at hh
          exact hh
        have hn'pos : 0 < n' := by
          rw [hlenw] at hn'ge
          omega
        have hscore : scoreAt line (word.map Char.toLower) t <
            scoreAt line (word.map Char.toLower) (t + 1) := by
          unfold scoreAt
          have e1 : (walkAt line (word.map Char.toLower) (t + 1)).1 = n' := by
            show (walk (line.drop (t + 1)) (word.map Char.toLower)).1 = n'
            rw [hdrop1, hw2]
          rw [e1, hn1]
          have m1 : max 1 (n' + 1) = n' + 1 := by omega
          have m2 : max 1 n' = n' := by omega
          rw [m1, m2]
          apply div_lt_div_of_pos_left
          · have : 0 < (word.map Char.toLower).length := by rw [hlenw]; omega
            exact_mod_cast this
          · exact_mod_cast hn'pos
          · exact_mod_cast Nat.lt_succ_self n'
        exact absurd (hmax (t + 1) hsucc1) (not_le_of_lt hscore)
  · -- the window ends with the last matched character
    have hlast := walk_last (line.drop t) (word.map Char.toLower)
      (walkAt line (word.map Char.toLower) t).1 hwlne hpair
    have hn1 : 1 ≤ (walkAt line (word.map Char.toLower) t).1 := by omega
    rw [List.getLast?_map, List.getLast?_eq_getElem?] at hlast
    have hlen2 : ((line.drop t).take (walkAt line (word.map Char.toLower) t).1).length =
        (walkAt line (word.map Char.toLower) t).1 := by
      rw [List.length_take, List.length_drop]
      omega
    rw [hlen2, List.getElem?_take_of_lt (by omega), List.getElem?_drop] at hlast
    rw [het', List.getLast?_eq_getElem?]
    have hlen3 : (line.take (t + (walkAt line (word.map Char.toLower) t).1)).length =
        t + (walkAt line (word.map Char.toLower) t).1 := by
      rw [List.length_take]
      omega
    rw [hlen3, List.getElem?_take_of_lt (by omega)]
    have harith : t + ((walkAt line (word.map Char.toLower) t).1 - 1) =
        t + (walkAt line (word.map Char.toLower) t).1 - 1 := by omega
    rw [harith] at hlast
    rw [hlast, List.getLast?_map]

/-- C6: `find_matching_substring` is deterministic (two runs on the same
inputs give the same span), and on a non-sentinel result the returned start
offset attains the maximal score over all successful start offsets while
every strictly earlier successful start offset has strictly smaller score —
only a strictly greater score replaces the retained best window. -/
theorem c6_deterministic_leftmost (line word : List Char) (hw : word ≠ []) (s e : Int)
    (h : findMatchingSubstring line word = (s, e)) (hs : s ≠ -1) :
    findMatchingSubstring line word = findMatchingSubstring line word ∧
      (∀ u : Nat, succAt line (word.map Char.toLower) u →
        scoreAt line (word.map Char.toLower) u ≤
          scoreAt line (word.map Char.toLower) s.toNat) ∧
      (∀ u : Nat, (u : Int) < s → succAt line (word.map Char.toLower) u →
        scoreAt line (word.map Char.toLower) u <
          scoreAt line (word.map Char.toLower) s.toNat) := by
  obtain ⟨t, hst, het, htlt, htsucc, hpos, hmax, hleft, _⟩ :=
    fms_inversion line word s e h hs
  have hst' : s.toNat = t := by rw [hst]; simp
  rw [hst']
  refine ⟨rfl, hmax, ?_⟩
  intro u hu husucc
  have hut : u < t := by
    rw [hst] at hu
    exact_mod_cast hu
  exact hleft u hut husucc

/-- C2 (corrected): the original claim is refuted on
`line = "axb"`, `word = "ab"`: the aligner returns the sentinel even though
`"ab"` is an in-order subsequence of the line's alphabetic characters
(the walk aborts on the intervening alphabetic `x`, which the subsequence
notion would skip). -/
theorem c2_counterexample :
    findMatchingSubstring "axb".data "ab".data = (-1, -1) ∧
      List.Sublist ("ab".data.map Char.toLower)
        (("axb".data.filter Char.isAlpha).map Char.toLower) := by
  constructor
  · exact fms_eq_sentinel "axb".data "ab".data (by decide)
  · decide

/-- C2 (amended): if `find_matching_substring` returns the sentinel for a
non-empty word, then the word's lowered characters do not occur in order
from any start offset of the line with only non-alphabetic characters
interspersed (alphabetic mismatches are hard stops). -/
theorem c2_sentinel_no_noise_occurrence (line word : List Char) (hw : word ≠ [])
    (h : findMatchingSubstring line word = (-1, -1)) :
    ∀ s : Nat, okFrom (line.drop s) (word.map Char.toLower) = false := by
  intro s
  by_contra hc
  rw [Bool.not_eq_false] at hc
  have hsucc : succAt line (word.map Char.toLower) s := walk_of_okFrom _ _ hc
  have hwlne : word.map Char.toLower ≠ [] := by simpa using hw
  rcases fms_cases line word with ⟨_, hbound⟩ | ⟨t, _, _, heq, _⟩
  · have h1 := hbound s hsucc
    have h2 := scoreAt_pos line (word.map Char.toLower) s hwlne
    linarith
  · rw [h] at heq
    have : (-1 : Int) = (t : Int) := congrArg Prod.fst heq
    omega

/-- C9: degenerate inputs are handled without failure: an empty word or an
empty line yields the sentinel from the aligner, an empty word makes the
line selector return its no-match result (index 0, first line or empty),
and the renderer returns the whole line as one unemphasised segment. -/
theorem c9_degenerate_inputs (line word : List Char) (lines : List (List Char)) :
    findMatchingSubstring line [] = (-1, -1) ∧
      findMatchingSubstring [] word = (-1, -1) ∧
      find_matching_line [] lines = (0, lines.headD []) ∧
      create_highlighted_text line [] = [(line, false)] := by
  refine ⟨fms_nil_word line, fms_nil_line word, ?_, ?_⟩
  · unfold find_matching_line
    rw [if_pos (Or.inl rfl)]
  · unfold create_highlighted_text
    rw [if_pos (Or.inl rfl)]

/-! ### Concrete evaluations -/

theorem scoreAt_eval (line wl : List Char) (s k m : Nat)
    (hk : wl.length = k) (hm : max 1 (walkAt line wl s).1 = m) :
    scoreAt line wl s = (k : ℚ) / (m : ℚ) := by
  unfold scoreAt
  rw [hk, hm]

/-- Concrete aligner run used by several witnesses. -/
theorem fms_ab : findMatchingSubstring "ab".data "ab".data = (0, 2) := by
  have h := fms_eq_found "ab".data "ab".data 0 (by decide) (by decide)
    (by rw [scoreAt_eval _ _ 0 2 2 (by decide) (by decide)]; norm_num)
    (by
      intro u hu husucc
      have hL : ("ab".data).length = 2 := by decide
      rw [hL] at hu
      interval_cases u
      · exact le_refl _
      · exact absurd husucc (by decide))
    (by
      intro u hu husucc
      omega)
  have hn : (walkAt "ab".data ("ab".data.map Char.toLower) 0).1 = 2 := by decide
  rw [hn] at h
  exact h

/-- Concrete aligner run on the spec's flagship scenario:
`line = "dis manib[us]"`, `word = "manibus"`. -/
theorem fms_dis_manibus :
    findMatchingSubstring "dis manib[us]".data "manibus".data = (4, 12) := by
  have h := fms_eq_found "dis manib[us]".data "manibus".data 4 (by decide) (by decide)
    (by rw [scoreAt_eval _ _ 4 7 8 (by decide) (by decide)]; norm_num)
    (by
      intro u hu husucc
      have hL : ("dis manib[us]".data).length = 13 := by decide
      rw [hL] at hu
      interval_cases u <;>
        first
          | exact absurd husucc (by decide)
          | (rw [scoreAt_eval _ _ 3 7 9 (by decide) (by decide),
              scoreAt_eval _ _ 4 7 8 (by decide) (by decide)]
             norm_num)
          | exact le_refl _)
    (by
      intro u hu husucc
      interval_cases u <;>
        first
          | exact absurd husucc (by decide)
          | (rw [scoreAt_eval _ _ 3 7 9 (by decide) (by decide),
              scoreAt_eval _ _ 4 7 8 (by decide) (by decide)]
             norm_num))
  have hn : (walkAt "dis manib[us]".data
      ("manibus".data.map Char.toLower) 4).1 = 8 := by decide
  rw [hn] at h
  norm_num at h
  exact h

/-- C3 (corrected): the claim is refuted on the concrete input itself: the
returned span is `(4, 12)`, an 8-character window `"manib[us"` — the walk
stops right after the final matched `s` and does not include the closing
bracket — so the window is not the 9-character `"manib[us]"` and the score
is `7/8`, not `7/9`. -/
theorem c3_counterexample :
    findMatchingSubstring "dis manib[us]".data "manibus".data = (4, 12) ∧
      ¬((("dis manib[us]".data.drop 4).take (12 - 4) = "manib[us]".data) ∧
        ("manibus".data.length : ℚ) / ((12 : ℚ) - 4) = 7 / 9) := by
  refine ⟨fms_dis_manibus, ?_⟩
  rintro ⟨h1, _⟩
  exact absurd h1 (by decide)

/-- C3 (amended): on `line = "dis manib[us]"`, `word = "manibus"` the
aligner returns the span `(4, 12)`, whose window is the 8-character
substring `"manib[us"` (the opening bracket is skipped as noise and the
closing bracket after the final matched character is not included), and the
score is `7/8`. -/
theorem c3_concrete_window :
    findMatchingSubstring "dis manib[us]".data "manibus".data = (4, 12) ∧
      ("dis manib[us]".data.drop 4).take (12 - 4) = "manib[us".data ∧
      ("manibus".data.length : ℚ) / ((12 : ℚ) - 4) = 7 / 8 := by
  refine ⟨fms_dis_manibus, by decide, ?_⟩
  have h7 : "manibus".data.length = 7 := by decide
  rw [h7]
  norm_num

/-! ### The line-selection loop -/

theorem lineScore_nonneg (l word : List Char) : 0 ≤ lineScore l word := by
  unfold lineScore
  split
  · exact le_refl 0
  · apply div_nonneg
    · exact_mod_cast Nat.zero_le _
    · have h1 : (1 : Int) ≤ max 1 ((findMatchingSubstring l word).2 -
          (findMatchingSubstring l word).1) := le_max_left _ _
      have : (0 : Int) ≤ max 1 ((findMatchingSubstring l word).2 -
          (findMatchingSubstring l word).1) := by omega
      exact_mod_cast this

theorem lineScore_pos (l word : List Char) (hw : word ≠ [])
    (hm : (findMatchingSubstring l word).1 ≠ -1) : 0 < lineScore l word := by
  unfold lineScore
  rw [if_neg hm]
  apply div_pos
  · have : 0 < word.length := List.length_pos.mpr hw
    exact_mod_cast this
  · have h1 : (1 : Int) ≤ max 1 ((findMatchingSubstring l word).2 -
        (findMatchingSubstring l word).1) := le_max_left _ _
    have : (0 : Int) < max 1 ((findMatchingSubstring l word).2 -
        (findMatchingSubstring l word).1) := by omega
    exact_mod_cast this

theorem lineScore_of_no_match (l word : List Char)
    (hm : (findMatchingSubstring l word).1 = -1) : lineScore l word = 0 := by
  unfold lineScore
  rw [if_pos hm]

theorem getD_mem_of_lt (ls : List (List Char)) (k : Nat) (hk : k < ls.length) :
    ls.getD k [] ∈ ls := by
  rw [List.getD_eq_getElem?_getD, List.getElem?_eq_getElem hk]
  simpa using List.getElem_mem hk

/-- Full characterisation of the line-selection loop `flGo`: either the best
state is unchanged and no line's score strictly beats the incoming best, or
the final state records the score and index of a line whose score strictly
beats the incoming best, is maximal over all lines, and strictly beats every
earlier line. -/
theorem flGo_spec (word : List Char) (ls : List (List Char)) :
    ∀ (idx : Nat) (b : ℚ) (i : Nat), 0 ≤ b →
      b ≤ (flGo word ls idx (b, i)).1 ∧
      ((flGo word ls idx (b, i) = (b, i) ∧ ∀ l ∈ ls, lineScore l word ≤ b) ∨
        ∃ k, k < ls.length ∧
          (flGo word ls idx (b, i)).2 = idx + k ∧
          (flGo word ls idx (b, i)).1 = lineScore (ls.getD k []) word ∧
          b < lineScore (ls.getD k []) word ∧
          (∀ l ∈ ls, lineScore l word ≤ lineScore (ls.getD k []) word) ∧
          (∀ k', k' < k → lineScore (ls.getD k' []) word <
            lineScore (ls.getD k []) word)) := by
  induction ls with
  | nil =>
    intro idx b i _
    refine ⟨le_refl b, Or.inl ⟨rfl, ?_⟩⟩
    intro l hl
    exact absurd hl (List.not_mem_nil l)
  | cons l rest ih =>
    intro idx b i hb
    have hunfold : flGo word (l :: rest) idx (b, i) =
        flGo word rest (idx + 1) (flStep word (b, i) idx l) := rfl
    by_cases hm : (findMatchingSubstring l word).1 = -1
    · -- line l has no match; the running best is untouched
      have hstep : flStep word (b, i) idx l = (b, i) := by
        simp [flStep, hm]
      have hl0 : lineScore l word = 0 := lineScore_of_no_match l word hm
      rw [hunfold, hstep]
      obtain ⟨ih1, ih2⟩ := ih (idx + 1) b i hb
      refine ⟨ih1, ?_⟩
      rcases ih2 with ⟨heq, hbound⟩ | ⟨k, hk, h2, h3, h4, h5, h6⟩
      · refine Or.inl ⟨heq, ?_⟩
        intro l' hl'
        rcases List.mem_cons.mp hl' with rfl | hl'
        · rw [hl0]; exact hb
        · exact hbound l' hl'
      · refine Or.inr ⟨k + 1, by simpa using hk, by rw [h2]; omega, ?_, ?_, ?_, ?_⟩
        · simpa using h3
        · simpa using h4
        · intro l' hl'
          rcases List.mem_cons.mp hl' with rfl | hl'
          · rw [hl0]
            simpa using le_trans hb (le_of_lt h4)
          · simpa using h5 l' hl'
        · intro k' hk'
          cases k' with
          | zero =>
            simp only [List.getD_cons_zero, List.getD_cons_succ]
            rw [hl0]
            exact lt_of_le_of_lt hb h4
          | succ k'' =>
            simp only [List.getD_cons_succ]
            exact h6 k'' (by omega)
    · -- line l has a match with score `lineScore l word`
      have hsc : lineScore l word =
          (word.length : ℚ) /
            ((max 1 ((findMatchingSubstring l word).2 -
              (findMatchingSubstring l word).1) : Int) : ℚ) := by
        unfold lineScore
        rw [if_neg hm]
      by_cases hup : b < lineScore l word
      · -- strict improvement: the best becomes (lineScore l, idx)
        have hstep : flStep word (b, i) idx l = (lineScore l word, idx) := by
          unfold flStep
          rw [if_pos hm, ← hsc, if_pos hup]
        rw [hunfold, hstep]
        obtain ⟨ih1, ih2⟩ := ih (idx + 1) (lineScore l word) idx
          (le_trans hb (le_of_lt hup))
        refine ⟨le_trans (le_of_lt hup) ih1, Or.inr ?_⟩
        rcases ih2 with ⟨heq, hbound⟩ | ⟨k, hk, h2, h3, h4, h5, h6⟩
        · refine ⟨0, by simp, by simpa using congrArg Prod.snd heq, ?_, ?_, ?_, ?_⟩
          · simpa using congrArg Prod.fst heq
          · simpa using hup
          · intro l' hl'
            rcases List.mem_cons.mp hl' with rfl | hl'
            · simp
            · simpa using hbound l' hl'
          · intro k' hk'
            omega
        · refine ⟨k + 1, by simpa using hk, by rw [h2]; omega, ?_, ?_, ?_, ?_⟩
          · simpa using h3
          · simpa using lt_trans hup h4
          · intro l' hl'
            rcases List.mem_cons.mp hl' with rfl | hl'
            · simpa using le_of_lt h4
            · simpa using h5 l' hl'
          · intro k' hk'
            cases k' with
            | zero =>
              simp only [List.getD_cons_zero, List.getD_cons_succ]
              exact h4
            | succ k'' =>
              simp only [List.getD_cons_succ]
              exact h6 k'' (by omega)
      · -- no improvement: the best is retained
        have hstep : flStep word (b, i) idx l = (b, i) := by
          unfold flStep
          rw [if_pos hm, ← hsc, if_neg hup]
        rw [hunfold, hstep]
        obtain ⟨ih1, ih2⟩ := ih (idx + 1) b i hb
        refine ⟨ih1, ?_⟩
        rcases ih2 with ⟨heq, hbound⟩ | ⟨k, hk, h2, h3, h4, h5, h6⟩
        · refine Or.inl ⟨heq, ?_⟩
          intro l' hl'
          rcases List.mem_cons.mp hl' with rfl | hl'
          · exact le_of_not_lt hup
          · exact hbound l' hl'
        · refine Or.inr ⟨k + 1, by simpa using hk, by rw [h2]; omega, ?_, ?_, ?_, ?_⟩
          · simpa using h3
          · simpa using h4
          · intro l' hl'
            rcases List.mem_cons.mp hl' with rfl | hl'
            · simpa using le_trans (le_of_not_lt hup) (le_of_lt h4)
            · simpa using h5 l' hl'
          · intro k' hk'
            cases k' with
            | zero =>
              simp only [List.getD_cons_zero, List.getD_cons_succ]
              exact lt_of_le_of_lt (le_of_not_lt hup) h4
            | succ k'' =>
              simp only [List.getD_cons_succ]
              exact h6 k'' (by omega)

/-- C5: for a non-empty word and a non-empty line list in which some line
matches, `find_matching_line` returns an in-range index together with that
line's text; the chosen line's score is maximal over all lines, every line
before the chosen one scores strictly less (strictly-greater comparison, so
the first line attaining the maximum wins), and the retained best score is
exactly the `find_matching_substring` score of the chosen line. -/
theorem c5_best_line_selection (word : List Char) (lines : List (List Char))
    (hw : word ≠ []) (hl : lines ≠ [])
    (hm : ∃ l ∈ lines, (findMatchingSubstring l word).1 ≠ -1) :
    (find_matching_line word lines).1 < lines.length ∧
      (find_matching_line word lines).2 =
        lines.getD (find_matching_line word lines).1 [] ∧
      (∀ l ∈ lines, lineScore l word ≤
        lineScore (lines.getD (find_matching_line word lines).1 []) word) ∧
      (∀ k, k < (find_matching_line word lines).1 →
        lineScore (lines.getD k []) word <
          lineScore (lines.getD (find_matching_line word lines).1 []) word) ∧
      (flGo word lines 0 (0, 0)).1 =
        lineScore (lines.getD (find_matching_line word lines).1 []) word := by
  have hcond : ¬(word = [] ∨ lines = []) := by
    simp [hw, hl]
  have hfml : find_matching_line word lines =
      ((flGo word lines 0 (0, 0)).2, lines.getD (flGo word lines 0 (0, 0)).2 []) := by
    unfold find_matching_line
    rw [if_neg hcond]
  obtain ⟨_, hcase⟩ := flGo_spec word lines 0 0 0 (le_refl 0)
  rcases hcase with ⟨heq, hbound⟩ | ⟨k, hk, h2, h3, h4, h5, h6⟩
  · exfalso
    obtain ⟨l, hlmem, hlm⟩ := hm
    have h1 := hbound l hlmem
    have h2 := lineScore_pos l word hw hlm
    linarith
  · rw [hfml]
    have h2' : (flGo word lines 0 (0, 0)).2 = k := by
      rw [h2]
      omega
    rw [h2']
    exact ⟨hk, rfl, h5, h6, h3⟩

/-- C8 (corrected/amended, part 1): for a non-empty word, if every line
yields the sentinel (which is vacuously so for the empty line list),
`find_matching_line` returns index 0 with the first line's text — and for
the empty line list it returns `(0, "")`, which has the same shape as a
no-match result rather than being a distinct empty-result indicator. -/
theorem c8_no_match_first_line (word : List Char) (lines : List (List Char))
    (hw : word ≠ [])
    (h : ∀ l ∈ lines, (findMatchingSubstring l word).1 = -1) :
    find_matching_line word lines = (0, lines.headD []) := by
  by_cases hl : lines = []
  · subst hl
    unfold find_matching_line
    rw [if_pos (Or.inr rfl)]
  · have hcond : ¬(word = [] ∨ lines = []) := by
      simp [hw, hl]
    unfold find_matching_line
    rw [if_neg hcond]
    obtain ⟨_, hcase⟩ := flGo_spec word lines 0 0 0 (le_refl 0)
    rcases hcase with ⟨heq, _⟩ | ⟨k, hk, _, _, h4, _, _⟩
    · have h2 : (flGo word lines 0 (0, 0)).2 = 0 := by
        rw [heq]
      rw [h2]
      obtain ⟨l0, rest, rfl⟩ := List.exists_cons_of_ne_nil hl
      simp
    · exfalso
      have hmem : lines.getD k [] ∈ lines := getD_mem_of_lt lines k hk
      have h0 : lineScore (lines.getD k []) word = 0 :=
        lineScore_of_no_match _ word (h _ hmem)
      rw [h0] at h4
      exact absurd h4 (by norm_num)

/-- C8 (counterexample): the claimed "explicit empty-result indicator
distinct from a no-match result" does not exist: on word `"a"`, the empty
line list and the one-element list holding an empty line (a line that
exists but has no match) return the identical result `(0, "")`. -/
theorem c8_counterexample :
    find_matching_line "a".data ([] : List (List Char)) = (0, ([] : List Char)) ∧
      find_matching_line "a".data [([] : List Char)] = (0, ([] : List Char)) := by
  constructor
  · decide
  · decide

/-- C4: concatenating the segments of `create_highlighted_text` reproduces
the line character-for-character; there are at most three ordered segments
(unemphasised prefix, emphasised window, unemphasised suffix, empty ones
omitted); on a sentinel match (or degenerate input) the whole line is one
unemphasised segment; and on a real match every kept segment is non-empty
and the emphasised segments are exactly the window `[start, end)`. -/
theorem c4_segment_reconstruction (line word : List Char) :
    ((create_highlighted_text line word).map Prod.fst).flatten = line ∧
      (create_highlighted_text line word).length ≤ 3 ∧
      ((word = [] ∨ line = [] ∨ (findMatchingSubstring line word).1 = -1) →
        create_highlighted_text line word = [(line, false)]) ∧
      ((findMatchingSubstring line word).1 ≠ -1 →
        (∀ p ∈ create_highlighted_text line word, p.1 ≠ []) ∧
          (create_highlighted_text line word).filter (fun p => p.2) =
            [((line.take (findMatchingSubstring line word).2.toNat).drop
                (findMatchingSubstring line word).1.toNat, true)]) := by
  by_cases h0 : word = [] ∨ line = []
  · have hsent : (findMatchingSubstring line word).1 = -1 := by
      rcases h0 with h0 | h0
      · rw [h0]
        rw [congrArg Prod.fst (fms_nil_word line)]
      · rw [h0]
        rw [congrArg Prod.fst (fms_nil_line word)]
    have hcht : create_highlighted_text line word = [(line, false)] := by
      unfold create_highlighted_text
      rw [if_pos h0]
    refine ⟨by rw [hcht]; simp, by rw [hcht]; simp, fun _ => hcht,
      fun hne => absurd hsent hne⟩
  · by_cases hsent : (findMatchingSubstring line word).1 = -1
    · have hcht : create_highlighted_text line word = [(line, false)] := by
        unfold create_highlighted_text
        rw [if_neg h0, if_pos hsent]
      refine ⟨by rw [hcht]; simp, by rw [hcht]; simp, fun _ => hcht,
        fun hne => absurd hsent hne⟩
    · obtain ⟨hs0, hse, heL⟩ := fms_bounds line word
        (findMatchingSubstring line word).1 (findMatchingSubstring line word).2 rfl hsent
      have hsn : (findMatchingSubstring line word).1.toNat ≤
          (findMatchingSubstring line word).2.toNat := by omega
      have hsnlt : 0 ≤ (findMatchingSubstring line word).1.toNat := Nat.zero_le _
      have hselt : (findMatchingSubstring line word).1.toNat <
          (findMatchingSubstring line word).2.toNat := by omega
      have heln : (findMatchingSubstring line word).2.toNat ≤ line.length := by omega
      have h1 : (line.take (findMatchingSubstring line word).2.toNat).take
          (findMatchingSubstring line word).1.toNat =
          line.take (findMatchingSubstring line word).1.toNat := by
        rw [List.take_take]
        congr 1
        omega
      have hAB : line.take (findMatchingSubstring line word).1.toNat ++
          (line.take (findMatchingSubstring line word).2.toNat).drop
            (findMatchingSubstring line word).1.toNat =
          line.take (findMatchingSubstring line word).2.toNat := by
        rw [← h1]
        exact List.take_append_drop _ _
      have hfull : line.take (findMatchingSubstring line word).1.toNat ++
          ((line.take (findMatchingSubstring line word).2.toNat).drop
            (findMatchingSubstring line word).1.toNat ++
            line.drop (findMatchingSubstring line word).2.toNat) = line := by
        rw [← List.append_assoc, hAB, List.take_append_drop]
      have hwinne : (line.take (findMatchingSubstring line word).2.toNat).drop
          (findMatchingSubstring line word).1.toNat ≠ [] := by
        apply List.ne_nil_of_length_pos
        rw [List.length_drop, List.length_take]
        omega
      by_cases hp : 0 < (findMatchingSubstring line word).1 <;>
        by_cases hq : (findMatchingSubstring line word).2 < (line.length : Int)
      · -- prefix and suffix both present
        have hcht : create_highlighted_text line word =
            [(line.take (findMatchingSubstring line word).1.toNat, false),
              ((line.take (findMatchingSubstring line word).2.toNat).drop
                (findMatchingSubstring line word).1.toNat, true),
              (line.drop (findMatchingSubstring line word).2.toNat, false)] := by
          unfold create_highlighted_text
          rw [if_neg h0, if_neg hsent, if_pos hp, if_pos hq]
          rfl
        refine ⟨?_, by rw [hcht]; simp, fun hcontra => ?_, fun _ => ⟨?_, ?_⟩⟩
        · rw [hcht]
          simpa using hfull
        · rcases hcontra with hh | hh | hh
          · exact absurd (Or.inl hh) h0
          · exact absurd (Or.inr hh) h0
          · exact absurd hh hsent
        · intro p hp'
          rw [hcht] at hp'
          have hpre : line.take (findMatchingSubstring line word).1.toNat ≠ [] := by
            apply List.ne_nil_of_length_pos
            rw [List.length_take]
            omega
          have hsuf : line.drop (findMatchingSubstring line word).2.toNat ≠ [] := by
            apply List.ne_nil_of_length_pos
            rw [List.length_drop]
            omega
          rcases List.mem_cons.mp hp' with rfl | hp'
          · exact hpre
          · rcases List.mem_cons.mp hp' with rfl | hp'
            · exact hwinne
            · rcases List.mem_cons.mp hp' with rfl | hp'
              · exact hsuf
              · exact absurd hp' (List.not_mem_nil p)
        · rw [hcht]
          simp [List.filter]
      · -- prefix present, suffix omitted
        have hcht : create_highlighted_text line word =
            [(line.take (findMatchingSubstring line word).1.toNat, false),
              ((line.take (findMatchingSubstring line word).2.toNat).drop
                (findMatchingSubstring line word).1.toNat, true)] := by
          unfold create_highlighted_text
          rw [if_neg h0, if_neg hsent, if_pos hp, if_neg hq]
          rfl
        have heq' : (findMatchingSubstring line word).2.toNat = line.length := by omega
        refine ⟨?_, by rw [hcht]; simp, fun hcontra => ?_, fun _ => ⟨?_, ?_⟩⟩
        · rw [hcht]
          simp only [List.map_cons, List.map_nil, List.flatten_cons, List.flatten_nil,
            List.append_nil]
          rw [hAB, heq', List.take_length]
        · rcases hcontra with hh | hh | hh
          · exact absurd (Or.inl hh) h0
          · exact absurd (Or.inr hh) h0
          · exact absurd hh hsent
        · intro p hp'
          rw [hcht] at hp'
          have hpre : line.take (findMatchingSubstring line word).1.toNat ≠ [] := by
            apply List.ne_nil_of_length_pos
            rw [List.length_take]
            omega
          rcases List.mem_cons.mp hp' with rfl | hp'
          · exact hpre
          · rcases List.mem_cons.mp hp' with rfl | hp'
            · exact hwinne
            · exact absurd hp' (List.not_mem_nil p)
        · rw [hcht]
          simp [List.filter]
      · -- prefix omitted, suffix present
        have hs0' : (findMatchingSubstring line word).1.toNat = 0 := by omega
        have hcht : create_highlighted_text line word =
            [((line.take (findMatchingSubstring line word).2.toNat).drop
                (findMatchingSubstring line word).1.toNat, true),
              (line.drop (findMatchingSubstring line word).2.toNat, false)] := by
          unfold create_highlighted_text
          rw [if_neg h0, if_neg hsent, if_neg hp, if_pos hq]
          simp
        refine ⟨?_, by rw [hcht]; simp, fun hcontra => ?_, fun _ => ⟨?_, ?_⟩⟩
        · rw [hcht]
          simp only [List.map_cons, List.map_nil, List.flatten_cons, List.flatten_nil,
            List.append_nil]
          rw [hs0', List.drop_zero, List.take_append_drop]
        · rcases hcontra with hh | hh | hh
          · exact absurd (Or.inl hh) h0
          · exact absurd (Or.inr hh) h0
          · exact absurd hh hsent
        · intro p hp'
          rw [hcht] at hp'
          have hsuf : line.drop (findMatchingSubstring line word).2.toNat ≠ [] := by
            apply List.ne_nil_of_length_pos
            rw [List.length_drop]
            omega
          rcases List.mem_cons.mp hp' with rfl | hp'
          · exact hwinne
          · rcases List.mem_cons.mp hp' with rfl | hp'
            · exact hsuf
            · exact absurd hp' (List.not_mem_nil p)
        · rw [hcht]
          simp [List.filter]
      · -- prefix and suffix both omitted
        have hs0' : (findMatchingSubstring line word).1.toNat = 0 := by omega
        have heq' : (findMatchingSubstring line word).2.toNat = line.length := by omega
        have hcht : create_highlighted_text line word =
            [((line.take (findMatchingSubstring line word).2.toNat).drop
                (findMatchingSubstring line word).1.toNat, true)] := by
          unfold create_highlighted_text
          rw [if_neg h0, if_neg hsent, if_neg hp, if_neg hq]
          simp
        refine ⟨?_, by rw [hcht]; simp, fun hcontra => ?_, fun _ => ⟨?_, ?_⟩⟩
        · rw [hcht]
          simp only [List.map_cons, List.map_nil, List.flatten_cons, List.flatten_nil,
            List.append_nil]
          rw [hs0', List.drop_zero, heq', List.take_length]
        · rcases hcontra with hh | hh | hh
          · exact absurd (Or.inl hh) h0
          · exact absurd (Or.inr hh) h0
          · exact absurd hh hsent
        · intro p hp'
          rw [hcht] at hp'
          rcases List.mem_cons.mp hp' with rfl | hp'
          · exact hwinne
          · exact absurd hp' (List.not_mem_nil p)
        · rw [hcht]
          simp [List.filter]

/-! ### Witnesses -/

/-- Witness for C1 at `line = "ab"`, `word = "ab"`, span `(0, 2)`. -/
theorem c1_witness :
    0 < ("ab".data.length : ℚ) / (((2 : Int) - 0 : Int) : ℚ) ∧
      ("ab".data.length : ℚ) / (((2 : Int) - 0 : Int) : ℚ) ≤ 1 ∧
      (("ab".data.length : ℚ) / (((2 : Int) - 0 : Int) : ℚ) = 1 ↔
        (("ab".data.drop ((0 : Int)).toNat).take (((2 : Int) - 0 : Int)).toNat).map
            Char.toLower = "ab".data.map Char.toLower) :=
  c1_score_bounds "ab".data "ab".data (by decide) 0 2 fms_ab (by decide)

/-- Witness for the amended C2 at `line = "x"`, `word = "b"`. -/
theorem c2_amended_witness :
    okFrom ("x".data.drop 0) ("b".data.map Char.toLower) = false :=
  c2_sentinel_no_noise_occurrence "x".data "b".data (by decide)
    (fms_eq_sentinel "x".data "b".data (by decide)) 0

/-- Witness for C4 exercising both the reconstruction law and the
degenerate single-segment case. -/
theorem c4_witness :
    ((create_highlighted_text "dis manib[us]".data "manibus".data).map Prod.fst).flatten =
        "dis manib[us]".data ∧
      create_highlighted_text "xy".data [] = [("xy".data, false)] :=
  ⟨(c4_segment_reconstruction "dis manib[us]".data "manibus".data).1,
    (c4_segment_reconstruction "xy".data []).2.2.1 (Or.inl rfl)⟩

/-- Witness for C5 at `word = "ab"`, `lines = ["ab"]`. -/
theorem c5_witness :
    (find_matching_line "ab".data ["ab".data]).1 < ["ab".data].length ∧
      (find_matching_line "ab".data ["ab".data]).2 =
        ["ab".data].getD (find_matching_line "ab".data ["ab".data]).1 [] ∧
      (∀ l ∈ ["ab".data], lineScore l "ab".data ≤
        lineScore (["ab".data].getD (find_matching_line "ab".data ["ab".data]).1 [])
          "ab".data) ∧
      (∀ k, k < (find_matching_line "ab".data ["ab".data]).1 →
        lineScore (["ab".data].getD k []) "ab".data <
          lineScore (["ab".data].getD (find_matching_line "ab".data ["ab".data]).1 [])
            "ab".data) ∧
      (flGo "ab".data ["ab".data] 0 (0, 0)).1 =
        lineScore (["ab".data].getD (find_matching_line "ab".data ["ab".data]).1 [])
          "ab".data :=
  c5_best_line_selection "ab".data ["ab".data] (by decide) (by decide)
    ⟨"ab".data, by simp, by rw [fms_ab]; decide⟩

/-- Witness for C6 at `line = "ab"`, `word = "ab"`, span `(0, 2)`. -/
theorem c6_witness :
    findMatchingSubstring "ab".data "ab".data = findMatchingSubstring "ab".data "ab".data ∧
      (∀ u : Nat, succAt "ab".data ("ab".data.map Char.toLower) u →
        scoreAt "ab".data ("ab".data.map Char.toLower) u ≤
          scoreAt "ab".data ("ab".data.map Char.toLower) ((0 : Int)).toNat) ∧
      (∀ u : Nat, (u : Int) < 0 → succAt "ab".data ("ab".data.map Char.toLower) u →
        scoreAt "ab".data ("ab".data.map Char.toLower) u <
          scoreAt "ab".data ("ab".data.map Char.toLower) ((0 : Int)).toNat) :=
  c6_deterministic_leftmost "ab".data "ab".data (by decide) 0 2 fms_ab (by decide)

/-- Witness for C7 at `line = "ab"`, `word = "ab"`, span `(0, 2)`. -/
theorem c7_witness :
    0 ≤ (0 : Int) ∧ (0 : Int) < 2 ∧ (2 : Int) ≤ ("ab".data.length : Int) :=
  c7_span_bounds "ab".data "ab".data 0 2 fms_ab (by decide)

/-- Witness for the amended C8 at `word = "b"`, `lines = ["x"]`. -/
theorem c8_amended_witness :
    find_matching_line "b".data ["x".data] = (0, ["x".data].headD []) :=
  c8_no_match_first_line "b".data ["x".data] (by decide)
    (by
      intro l hl
      rw [List.mem_singleton] at hl
      subst hl
      rw [fms_eq_sentinel "x".data "b".data (by decide)])

/-- Witness for C10 at `line = "ab"`, `word = "ab"`, span `(0, 2)`. -/
theorem c10_witness :
    (("ab".data.drop ((0 : Int)).toNat).head?).map Char.toLower =
        "ab".data.head?.map Char.toLower ∧
      (("ab".data.take ((2 : Int)).toNat).getLast?).map Char.toLower =
        "ab".data.getLast?.map Char.toLower :=
  c10_window_endpoints "ab".data "ab".data (by decide) 0 2 fms_ab (by decide)

end NEReus
